import Mathlib

/-!
# Verification of the chunking-and-concurrent-extraction pipeline

Shallow embedding of `go-version/internal/hackernewsscraper.go` (the
HackerNews "Who is hiring" scraper).  Go strings are modelled as `List Char`
(the inputs manipulated by the pipeline are ASCII, so Go's byte-length and
the character count coincide on every value the claims are about); Go slices
as `List`; fallible calls as `Except`/`Option`.  Every definition is a direct
transcription of the corresponding Go function and keeps its name.
-/

set_option autoImplicit false

namespace Scraper

/-! ## Configuration constants (hackernewsscraper.go, lines 28-34 and 459) -/

/-- `maxConcurrentRequests = 4` (line 29). -/
def maxConcurrentRequests : Nat := 4

/-- `retryBaseDelay = 1000` milliseconds (line 32). -/
def retryBaseDelay : Nat := 1000

/-- `maxRetryDelay = 60000` milliseconds (line 33). -/
def maxRetryDelay : Nat := 60000

/-- `maxChunkSize := 30000` inside `chunkByJobPostings` (line 459); the same
bound is passed to `simpleChunk` (line 455). -/
def maxChunkSize : Nat := 30000

/-! ## Go string primitives

`strings.Split`, `strings.Contains`, `strings.HasSuffix`, `strings.TrimSpace`
and `strings.ToLower` modelled on `List Char`.  `strings.Contains` is
`List.isInfixOf`; `strings.HasSuffix` is `List.isSuffixOf`. -/

/-- Worker for `goSplit`, scanning left to right and cutting at each leftmost
occurrence of `sep` (the semantics of Go's `strings.Split` for a non-empty
separator).  The fuel argument only serves to make the recursion structural;
`goSplit` supplies `s.length + 1`, which is never exhausted. -/
def goSplitAux (sep : List Char) : Nat → List Char → List Char → List (List Char)
  | 0, acc, s => [acc.reverse ++ s]
  | fuel + 1, acc, s =>
    if s = [] then [acc.reverse]
    else if sep.isPrefixOf s then acc.reverse :: goSplitAux sep fuel [] (s.drop sep.length)
    else
      match s with
      | [] => [acc.reverse]
      | c :: cs => goSplitAux sep fuel (c :: acc) cs

/-- Go `strings.Split(s, sep)` for non-empty `sep`. -/
def goSplit (s sep : List Char) : List (List Char) :=
  goSplitAux sep (s.length + 1) [] s

/-- Go `unicode.IsSpace` restricted to the ASCII white-space characters
(the only ones that can reach `TrimSpace` here). -/
def goIsSpace (c : Char) : Bool :=
  c = ' ' || c = '\t' || c = '\n' || c = '\x0b' || c = '\x0c' || c = '\r'

/-- Go `strings.TrimSpace`. -/
def trimSpace (s : List Char) : List Char :=
  ((s.dropWhile goIsSpace).reverse.dropWhile goIsSpace).reverse

/-- Go `strings.Contains(s, sub)`: `sub` occurs contiguously in `s`. -/
def containsSub : List Char → List Char → Bool
  | [], sub => sub.isPrefixOf []
  | c :: rest, sub => sub.isPrefixOf (c :: rest) || containsSub rest sub

/-! ## `simpleChunk` (lines 570-581)

```go
func simpleChunk(data string, chunkSize int) []string {
    var chunks []string
    for i := 0; i < len(data); i += chunkSize {
        end := i + chunkSize
        if end > len(data) { end = len(data) }
        chunks = append(chunks, data[i:end])
    }
    return chunks
}
```
The fuel argument makes the recursion structural; `simpleChunk` supplies
`data.length`, which suffices for every `chunkSize > 0` (with
`chunkSize = 0` the Go loop does not terminate and no claim is about it). -/

def simpleChunkF : Nat → List Char → Nat → List (List Char)
  | 0, _, _ => []
  | fuel + 1, data, chunkSize =>
    if data = [] then []
    else data.take chunkSize :: simpleChunkF fuel (data.drop chunkSize) chunkSize

/-- `simpleChunk(data, chunkSize)`. -/
def simpleChunk (data : List Char) (chunkSize : Nat) : List (List Char) :=
  simpleChunkF data.length data chunkSize

/-! ## Boundary Segmenter: `chunkByJobPostings` (lines 443-487)

The Go code locates job-posting boundaries with
`regexp.MustCompile(`+"`"+`<a id=up_\d+`+"`"+`).FindAllStringIndex(data, -1)`
and slices `data[start_i : start_(i+1)]` (last slice runs to `len(data)`).
Because the literal part `<a id=up_` contains no digit and its only `<` is at
offset 0, two matches of the pattern can never overlap, so the set of
leftmost non-overlapping match starts is exactly the set of positions where
the literal occurs followed by at least one digit. -/

/-- The literal part of the boundary pattern `<a id=up_\d+`. -/
def markerLit : List Char := "<a id=up_".toList

/-- `true` iff an occurrence of the boundary pattern starts at position `p`. -/
def isMarkerAt (data : List Char) (p : Nat) : Bool :=
  markerLit.isPrefixOf (data.drop p) &&
    (match (data.drop (p + markerLit.length)).head? with
     | some c => c.isDigit
     | none => false)

/-- Start positions of all boundary-pattern matches, in increasing order
(the `matches[i][0]` values of `FindAllStringIndex`). -/
def markerStarts (data : List Char) : List Nat :=
  (List.range data.length).filter (fun p => isMarkerAt data p)

/-- The slices `data[start_i : start_(i+1)]` (lines 463-472); the final slice
is `data[start_last : len(data)]`. -/
def segmentsFrom (data : List Char) : List Nat → List (List Char)
  | [] => []
  | [s] => [data.drop s]
  | s :: s2 :: rest => ((data.drop s).take (s2 - s)) :: segmentsFrom data (s2 :: rest)

/-- The per-posting slices of a document (one `jobPosting` per marker). -/
def postingsOf (data : List Char) : List (List Char) :=
  segmentsFrom data (markerStarts data)

/-! ## Size Balancer: `splitLargeJobPosting` (lines 490-514)

```go
sentences := strings.Split(jobPosting, ". ")
for _, sentence := range sentences {
    if currentChunk.Len()+len(sentence)+2 > maxSize && currentChunk.Len() > 0 {
        chunks = append(chunks, currentChunk.String()); currentChunk.Reset()
    }
    currentChunk.WriteString(sentence)
    if !strings.HasSuffix(sentence, ".") { currentChunk.WriteString(". ") }
}
if currentChunk.Len() > 0 { chunks = append(chunks, currentChunk.String()) }
``` -/

/-- The loop body of `splitLargeJobPosting`, with the builder state
(`chunks`, `currentChunk`) made explicit. -/
def splitLJP : List (List Char) → List (List Char) → List Char → Nat → List (List Char)
  | [], chunks, cur, _ => if 0 < cur.length then chunks ++ [cur] else chunks
  | s :: rest, chunks, cur, maxSize =>
    let flush : Bool := decide (maxSize < cur.length + s.length + 2) && decide (0 < cur.length)
    let chunks1 := if flush then chunks ++ [cur] else chunks
    let cur1 := if flush then ([] : List Char) else cur
    let cur2 := cur1 ++ s
    let cur3 := if ['.'].isSuffixOf s then cur2 else cur2 ++ ['.', ' ']
    splitLJP rest chunks1 cur3 maxSize

/-- `splitLargeJobPosting(jobPosting, maxSize)`. -/
def splitLargeJobPosting (jobPosting : List Char) (maxSize : Nat) : List (List Char) :=
  splitLJP (goSplit jobPosting ['.', ' ']) [] [] maxSize

/-! ## Size Balancer: `combineSmallChunks` (lines 517-568)

```go
for i, chunk := range chunks {
    newSize := currentCombined.Len() + len(chunk) + 4
    if newSize <= maxSize {
        if currentCombined.Len() > 0 { currentCombined.WriteString("\n\n") }
        currentCombined.WriteString(chunk)
    } else {
        if currentCombined.Len() > 0 {
            combined = append(combined, currentCombined.String()); currentCombined.Reset()
        }
        currentCombined.WriteString(chunk)
    }
}
if currentCombined.Len() > 0 { combined = append(combined, currentCombined.String()) }
``` -/

/-- The loop body of `combineSmallChunks` with explicit builder state. -/
def combineGo : List (List Char) → List (List Char) → List Char → Nat → List (List Char)
  | [], combined, cur, _ => if 0 < cur.length then combined ++ [cur] else combined
  | c :: rest, combined, cur, maxSize =>
    if cur.length + c.length + 4 ≤ maxSize then
      combineGo rest combined ((if 0 < cur.length then cur ++ ['\n', '\n'] else cur) ++ c) maxSize
    else
      combineGo rest (if 0 < cur.length then combined ++ [cur] else combined) c maxSize

/-- `combineSmallChunks(chunks, maxSize)`. -/
def combineSmallChunks (chunks : List (List Char)) (maxSize : Nat) : List (List Char) :=
  combineGo chunks [] [] maxSize

/-- `chunkByJobPostings(data)` (lines 443-487): marker-aligned segmentation,
falling back to `simpleChunk(data, 30000)` when no marker matches; postings
longer than `maxChunkSize` go through `splitLargeJobPosting`; finally
adjacent small chunks are merged by `combineSmallChunks`. -/
def chunkByJobPostings (data : List Char) : List (List Char) :=
  if markerStarts data = [] then simpleChunk data maxChunkSize
  else
    combineSmallChunks
      (((postingsOf data).map
          (fun jp =>
            if maxChunkSize < jp.length then splitLargeJobPosting jp maxChunkSize
            else [jp])).flatten)
      maxChunkSize

/-- "With the inserted unit separators removed": delete every newline byte.
The Normalizer strips every `"\n"` from the cleaned document before
segmentation (`stringsToRemove` contains `"\n"`, line 287), so the only
newline bytes in Segmenter/Balancer output are the `"\n\n"` separators
inserted by `combineSmallChunks`. -/
def removeNL (s : List Char) : List Char := s.filter (fun c => c != '\n')

/-! ## Relevance Filter: `filterChunksByKeywords` (lines 620-652) -/

/-- `includeKeywords` (lines 46-63), verbatim. -/
def includeKeywords : List (List Char) := [
  "react".toList, "reactjs".toList, "react.js".toList,
  "vue".toList, "vuejs".toList, "vue.js".toList,
  "go".toList, "golang".toList, "go-lang".toList,
  "javascript".toList, "js".toList,
  "typescript".toList, "ts".toList,
  "aws".toList, "amazon web services".toList,
  "node".toList, "nodejs".toList, "node.js".toList,
  "next".toList, "nextjs".toList, "next.js".toList,
  "angular".toList, "angularjs".toList,
  "svelte".toList, "sveltekit".toList,
  "express".toList, "expressjs".toList,
  "postgresql".toList, "postgres".toList,
  "mongodb".toList, "mongo".toList,
  "docker".toList,
  "kubernetes".toList, "k8s".toList,
  "graphql".toList]

/-- The accept test of the filter loop (lines 627-637):
`strings.Contains(strings.ToLower(chunk), strings.ToLower(includeWord))` for
some keyword.  `strings.ToLower` is modelled by `Char.toLower` (they agree on
ASCII, and every keyword is ASCII). -/
def hasRelevantTech (chunk : List Char) : Bool :=
  includeKeywords.any (fun kw => containsSub (chunk.map Char.toLower) (kw.map Char.toLower))

/-- `filterChunksByKeywords(chunks)`: append each accepted chunk, in order. -/
def filterChunksByKeywords : List (List Char) → List (List Char)
  | [] => []
  | chunk :: rest =>
    if hasRelevantTech chunk then chunk :: filterChunksByKeywords rest
    else filterChunksByKeywords rest

/-! ## Retry loop of `performAnalyze` (lines 144-203) and
`parseRetryAfter` (lines 206-234)

The extraction call itself (`client.CreateChatCompletion`) is the opaque
external capability; it is modelled as `call : Nat → Except (List Char)
(List Char)` giving, for each attempt (0-based `retries` value), either the
response content or the error message string.  Durations are modelled in
nanoseconds (`time.Duration` units), as `Int` because `time.ParseDuration`
can return a negative duration. -/

/-- The rate-limit classification (lines 164-167). -/
def isRateLimitError (msg : List Char) : Bool :=
  containsSub msg ("rate_limit_exceeded".toList) ||
  containsSub msg ("429".toList) ||
  containsSub msg ("Too Many Requests".toList) ||
  containsSub (msg.map Char.toLower) ("rate limit".toList)

/-- Value of a decimal digit character. -/
def digitVal (c : Char) : Nat := c.toNat - '0'.toNat

/-- Go `time/format.go` `leadingInt`: consume leading decimal digits
(overflow aside, which no realistic message reaches). -/
def leadingIntAux (acc : Nat) : List Char → Nat × List Char
  | [] => (acc, [])
  | c :: cs =>
    if c.isDigit then leadingIntAux (acc * 10 + digitVal c) cs else (acc, c :: cs)

/-- Go `leadingFraction`: digits after the decimal point, with their scale. -/
def leadingFractionAux (f scale : Nat) : List Char → Nat × Nat × List Char
  | [] => (f, scale, [])
  | c :: cs =>
    if c.isDigit then leadingFractionAux (f * 10 + digitVal c) (scale * 10) cs
    else (f, scale, c :: cs)

/-- Go `unitMap` of `time.ParseDuration`, in nanoseconds. -/
def unitNs (u : List Char) : Option Nat :=
  if u = "ns".toList then some 1
  else if u = "us".toList then some 1000
  else if u = "µs".toList then some 1000
  else if u = "μs".toList then some 1000
  else if u = "ms".toList then some 1000000
  else if u = "s".toList then some 1000000000
  else if u = "m".toList then some 60000000000
  else if u = "h".toList then some 3600000000000
  else none

/-- `true` on the characters at which Go's unit scan stops. -/
def isDigitOrDot (c : Char) : Bool := c = '.' || c.isDigit

/-- The component loop of Go `time.ParseDuration` (value in nanoseconds).
The fractional part is computed as `f * unit / scale`; Go computes
`int64(float64(f) * (float64(unit) / scale))`, which agrees whenever
`scale` divides `unit` (true of every fraction short enough to be exact,
in particular all values the claims evaluate, which have no fraction).
The fuel argument makes the recursion structural; each iteration consumes
at least the (non-empty) unit, so `s.length + 1` is never exhausted. -/
def parseDurationLoop : Nat → List Char → Nat → Option Nat
  | 0, _, _ => none
  | fuel + 1, s, d =>
    if s = [] then some d
    else if ¬ isDigitOrDot (s.headD ' ') then none
    else
      let vs := leadingIntAux 0 s
      let pre : Bool := decide (vs.2.length ≠ s.length)
      let fps :=
        match vs.2 with
        | '.' :: rest =>
          let fr := leadingFractionAux 0 1 rest
          (fr.1, fr.2.1, fr.2.2, decide (fr.2.2.length ≠ rest.length))
        | other => (0, 1, other, false)
      if pre = false ∧ fps.2.2.2 = false then none
      else
        let u := fps.2.2.1.takeWhile (fun c => ¬ isDigitOrDot c)
        let s3 := fps.2.2.1.dropWhile (fun c => ¬ isDigitOrDot c)
        if u = [] then none
        else
          match unitNs u with
          | none => none
          | some un => parseDurationLoop fuel s3 (d + vs.1 * un + fps.1 * un / fps.2.1)

/-- Go `time.ParseDuration(s)`, in nanoseconds (overflow checks omitted). -/
def parseDuration (s : List Char) : Option Int :=
  let neg : Bool := match s with | '-' :: _ => true | _ => false
  let s1 := match s with
    | '-' :: rest => rest
    | '+' :: rest => rest
    | other => other
  if s1 = "0".toList then some 0
  else if s1 = [] then none
  else
    match parseDurationLoop (s1.length + 1) s1 0 with
    | none => none
    | some d => some (if neg then -(d : Int) else (d : Int))

/-- `parseRetryAfter(errorMsg)` (lines 206-234): extract a suggested wait
from "Please try again in ..." messages; `0` when nothing parses. -/
def parseRetryAfter (errorMsg : List Char) : Int :=
  if containsSub errorMsg ("Please try again in ".toList) then
    if containsSub errorMsg ("ms".toList) then
      let parts := goSplit errorMsg ("Please try again in ".toList)
      if 1 < parts.length then
        let timePart := trimSpace ((goSplit (parts.getD 1 []) ("ms".toList)).getD 0 [])
        match parseDuration (timePart ++ "ms".toList) with
        | some w => w
        | none => 0
      else 0
    else if containsSub errorMsg ("s".toList) then
      let parts := goSplit errorMsg ("Please try again in ".toList)
      if 1 < parts.length then
        let timePart := trimSpace ((goSplit (parts.getD 1 []) ("s".toList)).getD 0 [])
        match parseDuration (timePart ++ "s".toList) with
        | some w => w
        | none => 0
      else 0
    else 0
  else 0

/-- The computed exponential backoff for the (already incremented) `retries`
value (lines 175-179), in nanoseconds:
`min(retryBaseDelay << (retries-1), maxRetryDelay)` milliseconds. -/
def backoffWait (retries : Nat) : Nat :=
  min ((retryBaseDelay <<< (retries - 1)) * 1000000) (maxRetryDelay * 1000000)

/-- The wait chosen before the next attempt (lines 172-180): the parsed
server-suggested wait if it is non-zero, else the exponential backoff. -/
def computeWait (msg : List Char) (retries : Nat) : Int :=
  let w := parseRetryAfter msg
  if w = 0 then (backoffWait retries : Int) else w

/-- `maxRetries := 5` (line 145). -/
def goMaxRetries : Nat := 5

/-- Terminal outcome of the retry loop. -/
inductive AnalyzeOutcome where
  | success (content : List Char)
  | maxRetriesErr (msg : List Char)
  | otherErr (msg : List Char)
deriving DecidableEq

/-- Observable trace of one `performAnalyze` run: final outcome, number of
`CreateChatCompletion` calls made, and the sleeps taken between attempts
(nanoseconds, in order). -/
structure AnalyzeRun where
  outcome : AnalyzeOutcome
  attempts : Nat
  waits : List Int
deriving DecidableEq

/-- The retry loop (lines 148-203).  `left` is the remaining retry budget
`maxRetries - retries`; Go's guard `retries < maxRetries` is exactly
`0 < left`, and on retry Go executes `retries++` then waits
`computeWait(err, retries)` — i.e. `computeWait msg (retries + 1)` in terms
of the pre-increment value. -/
def analyzeGo (call : Nat → Except (List Char) (List Char)) :
    Nat → Nat → AnalyzeRun
  | left, retries =>
    match call retries with
    | .ok content => ⟨.success content, 1, []⟩
    | .error msg =>
      if isRateLimitError msg then
        match left with
        | l + 1 =>
          let rest := analyzeGo call l (retries + 1)
          ⟨rest.outcome, rest.attempts + 1, computeWait msg (retries + 1) :: rest.waits⟩
        | 0 => ⟨.maxRetriesErr msg, 1, []⟩
      else ⟨.otherErr msg, 1, []⟩

/-- The whole retry phase of `performAnalyze` for a given extraction
capability: start with `retries = 0` and budget `maxRetries`. -/
def performAnalyze (call : Nat → Except (List Char) (List Char))
    (maxRetries : Nat) : AnalyzeRun :=
  analyzeGo call maxRetries 0

/-! ## Concurrent Extraction Scheduler: `processChunksConcurrently`
(lines 654-727)

One goroutine per chunk sends exactly one `ChunkResult{Index, Content,
Error}` on `resultChan`; the collection loop fills `results[Index]` on
success and appends to `errors` on failure.  The channel delivery order is
nondeterministic, so it is an explicit parameter `arrival`; the theorems
quantify over every permutation of the dispatched outcomes. -/

deriving instance DecidableEq for Except

/-- One delivered `ChunkResult`: `(Index, performAnalyze outcome)`, where
`.ok content` stands for `Error == nil` and `.error msg` for a non-nil
`Error` (in which case `Content` is `""`). -/
abbrev ChunkOutcome := Nat × Except (List Char) (List Char)

/-- The multiset of results produced by the `for i, chunk := range chunks`
goroutine launch (line 668): chunk `i` yields outcome `analyze chunks[i]`
tagged with index `i`. -/
def dispatchedOutcomes (chunks : List (List Char))
    (analyze : List Char → Except (List Char) (List Char)) : List ChunkOutcome :=
  (chunks.map analyze).enum

/-- The `Index` values the scheduler assigns to its input chunks
(`for i, chunk := range chunks`, line 668): positions in the given list. -/
def dispatchedIndices (chunks : List (List Char)) : List Nat :=
  chunks.enum.map Prod.fst

/-- The collection loop (lines 709-718): `results` starts as
`make([]string, numChunks)` and is written at `Index` on success; `errors`
accumulates `(Index, message)` in arrival order. -/
def collectResults (n : Nat) (arrival : List ChunkOutcome) :
    List (List Char) × List (Nat × List Char) :=
  arrival.foldl
    (fun acc r =>
      match r.2 with
      | .error msg => (acc.1, acc.2 ++ [(r.1, msg)])
      | .ok content => (acc.1.set r.1 content, acc.2))
    (List.replicate n [], [])

/-- The error entry the collection loop would append for one delivered
result (`nil` for successes) — specification-side view of the `errors`
slice. -/
def pickErr (r : ChunkOutcome) : Option (Nat × List Char) :=
  match r.2 with
  | .error msg => some (r.1, msg)
  | .ok _ => none

/-- The `Content` carried by a delivered result (`performAnalyze` returns
`""` alongside a non-nil error). -/
def okContent (e : Except (List Char) (List Char)) : List Char :=
  match e with
  | .ok c => c
  | .error _ => []

/-- The success path of the collection loop in isolation:
`results[Index] = Content` for a sequence of deliveries. -/
def setFold (l : List (Nat × List Char)) (init : List (List Char)) : List (List Char) :=
  l.foldl (fun a p => a.set p.1 p.2) init

/-- `processChunksConcurrently` after all workers finished (lines 709-726):
`errors` non-empty means `return nil, fmt.Errorf(...)`, else the in-order
`results` slice is returned. -/
def processChunksConcurrently (chunks : List (List Char))
    (arrival : List ChunkOutcome) :
    Except (List (Nat × List Char)) (List (List Char)) :=
  let res := collectResults chunks.length arrival
  if res.2 = [] then .ok res.1 else .error res.2

/-! ## Result Compiler: `saveResultsToFiles` (lines 730-748) and
`consolidateLogs` (lines 852-901)

The logs directory is modelled as a list of `(fileName, content)` pairs.
`os.ReadDir` returns entries sorted by filename (byte-wise ascending), which
is modelled by an insertion sort under byte-wise `lexLe`. -/

/-- `fmt.Sprintf("%d", i)`. -/
def natName (i : Nat) : List Char := Nat.toDigits 10 i

/-- `fmt.Sprintf("output-%d.log", index)` (line 759). -/
def outputFileName (i : Nat) : List Char :=
  "output-".toList ++ natName i ++ ".log".toList

/-- `saveResultsToFiles(results)` starting at the given `fileIndex` (a
global variable, `0` at process start): empty contents are skipped without
consuming an index; each saved file is `output-<fileIndex>.log`. -/
def saveResultsToFiles : List (List Char) → Nat → List (List Char × List Char)
  | [], _ => []
  | content :: rest, fileIndex =>
    if content = [] then saveResultsToFiles rest fileIndex
    else (outputFileName fileIndex, content) :: saveResultsToFiles rest (fileIndex + 1)

/-- Byte-wise lexicographic string order (Go `<` on strings), as used by
`os.ReadDir` to sort directory entries. -/
def lexLe : List Char → List Char → Bool
  | [], _ => true
  | _ :: _, [] => false
  | a :: as, b :: bs => if a = b then lexLe as bs else decide (a < b)

/-- Insert one directory entry into a name-sorted listing. -/
def insertByName (f : List Char × List Char) :
    List (List Char × List Char) → List (List Char × List Char)
  | [] => [f]
  | g :: gs => if lexLe f.1 g.1 then f :: g :: gs else g :: insertByName f gs

/-- `os.ReadDir`'s sorted-by-filename directory listing. -/
def sortByName : List (List Char × List Char) → List (List Char × List Char)
  | [] => []
  | f :: fs => insertByName f (sortByName fs)

/-- The name of the compiled artifact (line 856). -/
def compiledLogName : List Char := "compiled.log".toList

/-- `consolidateLogs` (lines 852-886): concatenate every file of the logs
directory except `compiled.log`, in `os.ReadDir` order, appending `"\n"`
after each, into the compiled artifact. -/
def consolidateLogs (dir : List (List Char × List Char)) : List Char :=
  ((sortByName dir).filterMap
    (fun f => if f.1 = compiledLogName then none else some (f.2 ++ ['\n']))).flatten

/-- `runScript` (lines 774-806) aborts before `saveResultsToFiles` when
`processChunksConcurrently` returns an error: no file is written. -/
def runPipelineSave (chunks : List (List Char)) (arrival : List ChunkOutcome) :
    Option (List (List Char × List Char)) :=
  match processChunksConcurrently chunks arrival with
  | .error _ => none
  | .ok results => some (saveResultsToFiles results 0)

/-! ## Worker-task event order (lines 668-699)

The body of each worker goroutine performs, in program order: acquire a
semaphore slot (`semaphore <- struct{}{}`, line 674), sleep the stagger
delay if it is positive (lines 679-683), call `performAnalyze` (line 687),
send the result on `resultChan` (line 688), and release the slot (the
deferred `<-semaphore`, line 675). -/

/-- Events of one worker task, in program order. -/
inductive WorkerEvent where
  | acquireSlot
  | staggerSleep (ms : Nat)
  | extractCall
  | sendResult
  | releaseSlot
deriving DecidableEq

/-- `staggerDelay := time.Duration(index*500) * time.Millisecond`
(line 679), in milliseconds. -/
def staggerDelayMs (index : Nat) : Nat := index * 500

/-- The program-order event list of the worker for chunk `index`. -/
def workerEvents (index : Nat) : List WorkerEvent :=
  [WorkerEvent.acquireSlot] ++
    (if 0 < staggerDelayMs index then [WorkerEvent.staggerSleep (staggerDelayMs index)]
     else []) ++
    [WorkerEvent.extractCall, WorkerEvent.sendResult, WorkerEvent.releaseSlot]

/-! ## Concrete inputs used by counterexamples and witnesses -/

/-- A document consisting of one marked job posting of 30011 bytes that
contains no `". "` sentence boundary. -/
def c1Input : List Char := markerLit ++ '1' :: List.replicate 30001 'a'

/-- The single unit `chunkByJobPostings` emits for `c1Input`: the whole
posting with `". "` appended, 30013 bytes. -/
def c1BadChunk : List Char := c1Input ++ ['.', ' ']

/-- A document with one byte of text before its single boundary marker. -/
def c3Input : List Char := 'X' :: (markerLit ++ ['1', 'Y'])

/-- A rate-limit error message carrying the parseable suggested wait "0ms". -/
def c5Msg : List Char := "429 Please try again in 0ms".toList

/-- The input units of the C6 counterexample: the first contains no
configured keyword, the second contains "golang". -/
def c6Chunks : List (List Char) := ["plumber wanted".toList, "golang dev".toList]

/-- Eleven non-empty extraction results, used to overflow single-digit file
names in the C7 counterexample. -/
def c7Results : List (List Char) :=
  ["A".toList, "B".toList, "C".toList, "D".toList, "E".toList, "F".toList,
   "G".toList, "H".toList, "I".toList, "J".toList, "K".toList]

/-! ### Lemmas about `simpleChunk` -/

theorem simpleChunkF_nil (fuel chunkSize : Nat) : simpleChunkF fuel [] chunkSize = [] := by
  cases fuel <;> simp [simpleChunkF]

theorem simpleChunkF_eq_nil_iff (fuel : Nat) (data : List Char) (chunkSize : Nat)
    (hle : data.length ≤ fuel) :
    simpleChunkF fuel data chunkSize = [] ↔ data = [] := by
  cases fuel with
  | zero => simp_all [simpleChunkF, List.length_eq_zero]
  | succ n =>
    by_cases h : data = [] <;> simp [simpleChunkF, h]

theorem simpleChunkF_flatten (fuel : Nat) : ∀ (data : List Char) (chunkSize : Nat),
    0 < chunkSize → data.length ≤ fuel → (simpleChunkF fuel data chunkSize).flatten = data := by
  induction fuel with
  | zero =>
    intro data chunkSize _ hle
    have : data = [] := by simpa [List.length_eq_zero] using Nat.le_zero.mp hle
    simp [this, simpleChunkF]
  | succ n ih =>
    intro data chunkSize hpos hle
    by_cases h : data = []
    · simp [simpleChunkF, h]
    · have hlen : 0 < data.length := List.length_pos.mpr h
      have hdrop : (data.drop chunkSize).length ≤ n := by
        rw [List.length_drop]
        omega
      simp [simpleChunkF, h, ih (data.drop chunkSize) chunkSize hpos hdrop]

theorem simpleChunkF_count (fuel : Nat) : ∀ (data : List Char) (chunkSize : Nat),
    0 < chunkSize → data.length ≤ fuel →
    (simpleChunkF fuel data chunkSize).length = (data.length + chunkSize - 1) / chunkSize := by
  induction fuel with
  | zero =>
    intro data chunkSize hpos hle
    have : data = [] := by simpa [List.length_eq_zero] using Nat.le_zero.mp hle
    subst this
    simp [simpleChunkF]
    exact (Nat.div_eq_of_lt (by omega)).symm
  | succ n ih =>
    intro data chunkSize hpos hle
    by_cases h : data = []
    · subst h
      simp [simpleChunkF]
      exact (Nat.div_eq_of_lt (by omega)).symm
    · have hlen : 0 < data.length := List.length_pos.mpr h
      have hdrop : (data.drop chunkSize).length ≤ n := by
        rw [List.length_drop]; omega
      rw [simpleChunkF, if_neg h]
      simp only [List.length_cons, ih (data.drop chunkSize) chunkSize hpos hdrop,
        List.length_drop]
      have hr : data.length + chunkSize - 1 = (data.length - 1) + chunkSize := by omega
      rw [hr, Nat.add_div_right _ hpos]
      by_cases hcase : data.length ≤ chunkSize
      · have h1 : data.length - chunkSize = 0 := by omega
        rw [h1]
        have h2 : (0 + chunkSize - 1) / chunkSize = 0 := Nat.div_eq_of_lt (by omega)
        have h3 : (data.length - 1) / chunkSize = 0 := Nat.div_eq_of_lt (by omega)
        omega
      · have h1 : data.length - chunkSize + chunkSize - 1 = data.length - 1 := by omega
        rw [h1]

theorem simpleChunkF_dropLast (fuel : Nat) : ∀ (data : List Char) (chunkSize : Nat),
    0 < chunkSize → data.length ≤ fuel →
    ∀ c ∈ (simpleChunkF fuel data chunkSize).dropLast, c.length = chunkSize := by
  induction fuel with
  | zero =>
    intro data chunkSize _ hle
    have : data = [] := by simpa [List.length_eq_zero] using Nat.le_zero.mp hle
    simp [this, simpleChunkF]
  | succ n ih =>
    intro data chunkSize hpos hle c hc
    by_cases h : data = []
    · simp [simpleChunkF, h] at hc
    · rw [simpleChunkF, if_neg h] at hc
      have hlen : 0 < data.length := List.length_pos.mpr h
      have hdrop : (data.drop chunkSize).length ≤ n := by
        rw [List.length_drop]; omega
      by_cases hrest : simpleChunkF n (data.drop chunkSize) chunkSize = []
      · simp [hrest] at hc
      · rw [List.dropLast_cons_of_ne_nil hrest] at hc
        rcases List.mem_cons.mp hc with h1 | h1
        · subst h1
          have : data.drop chunkSize ≠ [] :=
            fun hh => hrest (by simp [hh, simpleChunkF_nil])
          have : chunkSize < data.length := by
            by_contra hcon
            exact this (List.drop_eq_nil_of_le (by omega))
          simp [List.length_take]
          omega
        · exact ih (data.drop chunkSize) chunkSize hpos hdrop c h1

theorem simpleChunkF_ne_nil (fuel : Nat) : ∀ (data : List Char) (chunkSize : Nat),
    0 < chunkSize → data.length ≤ fuel →
    ∀ c ∈ simpleChunkF fuel data chunkSize, c ≠ [] := by
  induction fuel with
  | zero =>
    intro data chunkSize _ hle
    have : data = [] := by simpa [List.length_eq_zero] using Nat.le_zero.mp hle
    simp [this, simpleChunkF]
  | succ n ih =>
    intro data chunkSize hpos hle c hc
    by_cases h : data = []
    · simp [simpleChunkF, h] at hc
    · rw [simpleChunkF, if_neg h] at hc
      have hlen : 0 < data.length := List.length_pos.mpr h
      have hdrop : (data.drop chunkSize).length ≤ n := by
        rw [List.length_drop]; omega
      rcases List.mem_cons.mp hc with h1 | h1
      · subst h1
        intro hcon
        have hl := congrArg List.length hcon
        rw [List.length_take] at hl
        simp only [List.length_nil] at hl
        omega
      · exact ih (data.drop chunkSize) chunkSize hpos hdrop c h1

theorem simpleChunkF_length_le (fuel : Nat) : ∀ (data : List Char) (chunkSize : Nat),
    0 < chunkSize → data.length ≤ fuel →
    ∀ c ∈ simpleChunkF fuel data chunkSize, c.length ≤ chunkSize := by
  induction fuel with
  | zero =>
    intro data chunkSize _ hle
    have : data = [] := by simpa [List.length_eq_zero] using Nat.le_zero.mp hle
    simp [this, simpleChunkF]
  | succ n ih =>
    intro data chunkSize hpos hle c hc
    by_cases h : data = []
    · simp [simpleChunkF, h] at hc
    · rw [simpleChunkF, if_neg h] at hc
      have hlen : 0 < data.length := List.length_pos.mpr h
      rcases List.mem_cons.mp hc with h1 | h1
      · subst h1; simp [List.length_take]
      · have hdrop : (data.drop chunkSize).length ≤ n := by
          rw [List.length_drop]; omega
        exact ih (data.drop chunkSize) chunkSize hpos hdrop c h1

/-! ### Claim C10: `simpleChunk` is an exact fixed-size slicer -/

/-- C10: for every input `data` and chunk size `n > 0`, `simpleChunk data n`
returns `⌈len(data)/n⌉` chunks whose in-order concatenation is exactly
`data`; every chunk except possibly the last has length exactly `n`, every
chunk (in particular the last) is non-empty, and the empty string yields
zero chunks. -/
theorem C10_simpleChunk_exact_slicer (data : List Char) (n : Nat) (hpos : 0 < n) :
    (simpleChunk data n).length = (data.length + n - 1) / n ∧
    (simpleChunk data n).flatten = data ∧
    (∀ c ∈ (simpleChunk data n).dropLast, c.length = n) ∧
    (∀ c ∈ simpleChunk data n, c ≠ []) ∧
    (data = [] → simpleChunk data n = []) :=
  ⟨simpleChunkF_count data.length data n hpos le_rfl,
   simpleChunkF_flatten data.length data n hpos le_rfl,
   simpleChunkF_dropLast data.length data n hpos le_rfl,
   simpleChunkF_ne_nil data.length data n hpos le_rfl,
   fun hd => by subst hd; rfl⟩

theorem C10_simpleChunk_exact_slicer_witness :
    0 < 2 ∧
    ((simpleChunk "abcde".toList 2).length = ("abcde".toList.length + 2 - 1) / 2 ∧
     (simpleChunk "abcde".toList 2).flatten = "abcde".toList ∧
     (∀ c ∈ (simpleChunk "abcde".toList 2).dropLast, c.length = 2) ∧
     (∀ c ∈ simpleChunk "abcde".toList 2, c ≠ []) ∧
     ("abcde".toList = [] → simpleChunk "abcde".toList 2 = [])) :=
  ⟨by decide, C10_simpleChunk_exact_slicer "abcde".toList 2 (by decide)⟩

/-! ### Claim C8: stagger sleep versus slot acquisition -/

/-- C8 counterexample: in the worker goroutine for unit index 1, the
semaphore slot is acquired (line 674) *before* the stagger sleep happens
(line 682), so the claimed "sleeps before acquiring its concurrency slot"
is false of the code. -/
theorem C8_counterexample :
    workerEvents 1 =
      [WorkerEvent.acquireSlot, WorkerEvent.staggerSleep 500,
       WorkerEvent.extractCall, WorkerEvent.sendResult, WorkerEvent.releaseSlot] ∧
    ¬ (workerEvents 1).indexOf (WorkerEvent.staggerSleep 500) <
        (workerEvents 1).indexOf WorkerEvent.acquireSlot := by
  decide

/-- C8 amended: for every dispatched unit with positive index, the worker
task sleeps `index * staggerDelay` *after* acquiring its concurrency slot,
so the stagger sleep occupies one of the `maxConcurrent` slots (staggering
is not independent of the concurrency bound). -/
theorem C8_stagger_after_acquire (index : Nat) (h : 0 < index) :
    WorkerEvent.staggerSleep (staggerDelayMs index) ∈ workerEvents index ∧
    (workerEvents index).indexOf WorkerEvent.acquireSlot <
      (workerEvents index).indexOf (WorkerEvent.staggerSleep (staggerDelayMs index)) := by
  have hpos : 0 < staggerDelayMs index := by
    simp only [staggerDelayMs]; omega
  constructor
  · simp [workerEvents, if_pos hpos]
  · have h1 : (workerEvents index).indexOf WorkerEvent.acquireSlot = 0 := by
      simp only [workerEvents, if_pos hpos]
      exact List.indexOf_cons_self _ _
    have h2 : (workerEvents index).indexOf
        (WorkerEvent.staggerSleep (staggerDelayMs index)) = 1 := by
      simp only [workerEvents, if_pos hpos, List.cons_append, List.nil_append]
      rw [List.indexOf_cons_ne _ (by simp), List.indexOf_cons_self]
    omega

theorem C8_stagger_after_acquire_witness :
    0 < 1 ∧
    (WorkerEvent.staggerSleep (staggerDelayMs 1) ∈ workerEvents 1 ∧
     (workerEvents 1).indexOf WorkerEvent.acquireSlot <
       (workerEvents 1).indexOf (WorkerEvent.staggerSleep (staggerDelayMs 1))) :=
  ⟨by decide, C8_stagger_after_acquire 1 (by decide)⟩

/-! ### Claim C6: the Relevance Filter -/

theorem filterChunksByKeywords_eq_filter (l : List (List Char)) :
    filterChunksByKeywords l = l.filter hasRelevantTech := by
  induction l with
  | nil => rfl
  | cons c rest ih =>
    by_cases hc : hasRelevantTech c <;> simp [filterChunksByKeywords, hc, ih]

/-- C6 counterexample: the surviving unit `"golang dev"` sits at original
index 1 of the input, but downstream (`for i, chunk := range chunks` in
`processChunksConcurrently`) it is dispatched with index 0: indices are
re-numbered densely over the filtered list, not retained sparsely. -/
theorem C6_counterexample :
    filterChunksByKeywords c6Chunks = ["golang dev".toList] ∧
    c6Chunks.indexOf ("golang dev".toList) = 1 ∧
    dispatchedIndices (filterChunksByKeywords c6Chunks) = [0] := by
  decide

/-- C6 amended: the filter outputs exactly the subsequence of units whose
lower-cased text contains at least one configured keyword (case-insensitive
substring), in the original order; but the surviving units carry no index —
the Scheduler re-numbers the filtered list densely `0..k-1`, so downstream
stages see a dense, re-numbered index space rather than the sparse original
one. -/
theorem C6_filter_subsequence_dense_reindex (chunks : List (List Char)) :
    filterChunksByKeywords chunks = chunks.filter hasRelevantTech ∧
    (filterChunksByKeywords chunks).Sublist chunks ∧
    dispatchedIndices (filterChunksByKeywords chunks) =
      List.range (chunks.filter hasRelevantTech).length := by
  refine ⟨filterChunksByKeywords_eq_filter chunks, ?_, ?_⟩
  · rw [filterChunksByKeywords_eq_filter]
    exact List.filter_sublist chunks
  · rw [filterChunksByKeywords_eq_filter]
    simp [dispatchedIndices, List.enum_map_fst]

/-! ### Claim C9: idempotence of the Balancer merge

The shape invariant of `combineSmallChunks` output: every emitted chunk is
non-empty, and each adjacent pair `a, b` overflows (`maxSize <
a.length + b.length + 4`) — otherwise `b`'s first constituent would have
been merged into `a`. -/

theorem combineGo_invariant (m : Nat) : ∀ (chunks combined : List (List Char)) (cur : List Char),
    (∀ c ∈ combined, c ≠ []) →
    List.Chain' (fun a b : List Char => m < a.length + b.length + 4) combined →
    (∀ last, combined.getLast? = some last → m < last.length + cur.length + 4) →
    (∀ c ∈ combineGo chunks combined cur m, c ≠ []) ∧
    List.Chain' (fun a b : List Char => m < a.length + b.length + 4)
      (combineGo chunks combined cur m) := by
  intro chunks
  induction chunks with
  | nil =>
    intro combined cur hne hchain hinv
    by_cases hcur : 0 < cur.length
    · have hcurne : cur ≠ [] := by
        intro h; subst h; simp at hcur
      rw [combineGo, if_pos hcur]
      constructor
      · intro c hc
        rcases List.mem_append.mp hc with h | h
        · exact hne c h
        · simp at h; subst h; exact hcurne
      · refine List.chain'_append.mpr ⟨hchain, List.chain'_singleton cur, ?_⟩
        intro x hx y hy
        simp at hy; subst hy
        exact hinv x hx
    · rw [combineGo, if_neg hcur]
      exact ⟨hne, hchain⟩
  | cons c rest ih =>
    intro combined cur hne hchain hinv
    rw [combineGo]
    by_cases hle : cur.length + c.length + 4 ≤ m
    · rw [if_pos hle]
      refine ih combined _ hne hchain ?_
      intro last hlast
      have := hinv last hlast
      have hlen : cur.length ≤ ((if 0 < cur.length then cur ++ ['\n', '\n'] else cur) ++ c).length := by
        by_cases h : 0 < cur.length <;> simp [h]
      omega
    · rw [if_neg hle]
      by_cases hcur : 0 < cur.length
      · rw [if_pos hcur]
        have hcurne : cur ≠ [] := by intro h; subst h; simp at hcur
        refine ih (combined ++ [cur]) c ?_ ?_ ?_
        · intro x hx
          rcases List.mem_append.mp hx with h | h
          · exact hne x h
          · simp at h; subst h; exact hcurne
        · refine List.chain'_append.mpr ⟨hchain, List.chain'_singleton cur, ?_⟩
          intro x hx y hy
          simp at hy; subst hy
          exact hinv x hx
        · intro last hlast
          rw [List.getLast?_concat] at hlast
          have : last = cur := by simpa using hlast.symm
          subst this
          omega
      · rw [if_neg hcur]
        refine ih combined c hne hchain ?_
        intro last hlast
        have := hinv last hlast
        have : cur.length = 0 := by omega
        omega

/-- On a list whose elements are non-empty and whose adjacent pairs all
overflow, the merge loop is the identity (each element is flushed alone). -/
theorem combineGo_fixed (m : Nat) : ∀ (l combined : List (List Char)) (cur : List Char),
    cur ≠ [] → (∀ c ∈ l, c ≠ []) →
    List.Chain' (fun a b : List Char => m < a.length + b.length + 4) (cur :: l) →
    combineGo l combined cur m = combined ++ cur :: l := by
  intro l
  induction l with
  | nil =>
    intro combined cur hcur _ _
    rw [combineGo, if_pos (List.length_pos.mpr hcur)]
  | cons c rest ih =>
    intro combined cur hcur hne hchain
    have hR : m < cur.length + c.length + 4 := (List.chain'_cons.mp hchain).1
    rw [combineGo, if_neg (by omega), if_pos (List.length_pos.mpr hcur)]
    rw [ih (combined ++ [cur]) c (hne c (by simp)) (fun x hx => hne x (by simp [hx]))
      (List.chain'_cons.mp hchain).2]
    simp

/-- First step of a merge pass started on `c :: rest` with empty builder
state: whichever branch is taken, the state becomes `(combined = [], cur = c)`. -/
theorem combineGo_cons_nil (m : Nat) (c : List Char) (rest : List (List Char)) :
    combineGo (c :: rest) [] [] m = combineGo rest [] c m := by
  by_cases h : ([] : List Char).length + c.length + 4 ≤ m <;> simp [combineGo, h]

/-- C9: for every sequence of units each already at or under the maximum
size, applying `combineSmallChunks` to its own output yields exactly the
same sequence as applying it once.  (The proof does not in fact need the
size hypothesis: the merge pass is idempotent on arbitrary input.) -/
theorem C9_combineSmallChunks_idempotent (maxSize : Nat) (chunks : List (List Char))
    (_hsize : ∀ c ∈ chunks, c.length ≤ maxSize) :
    combineSmallChunks (combineSmallChunks chunks maxSize) maxSize =
      combineSmallChunks chunks maxSize := by
  have hinv := combineGo_invariant maxSize chunks [] []
    (by simp) List.chain'_nil (by simp)
  rcases hout : combineGo chunks [] [] maxSize with _ | ⟨c, rest⟩
  · simp [combineSmallChunks, hout, combineGo]
  · rw [hout] at hinv
    have hcs : combineSmallChunks chunks maxSize = c :: rest := by
      rw [combineSmallChunks, hout]
    rw [hcs, combineSmallChunks, combineGo_cons_nil]
    rw [combineGo_fixed maxSize rest [] c (hinv.1 c (by simp))
      (fun x hx => hinv.1 x (by simp [hx])) hinv.2]
    simp

theorem C9_combineSmallChunks_idempotent_witness :
    (∀ c ∈ [['a'], ['b']], c.length ≤ 10) ∧
    combineSmallChunks (combineSmallChunks [['a'], ['b']] 10) 10 =
      combineSmallChunks [['a'], ['b']] 10 :=
  ⟨by decide, C9_combineSmallChunks_idempotent 10 [['a'], ['b']] (by decide)⟩

/-! ### Claim C1: the Segmenter/Balancer size invariant -/

/-- Every chunk the split loop emits is bounded by `m`, provided every
sentence fits (`s.length + 2 ≤ m`): a sentence is only ever written into an
accumulator that was either just flushed (so the new content is at most
`s.length + 2`) or passes the size guard. -/
theorem splitLJP_le (m : Nat) : ∀ (sentences chunks : List (List Char)) (cur : List Char),
    (∀ s ∈ sentences, s.length + 2 ≤ m) →
    (∀ c ∈ chunks, c.length ≤ m) →
    cur.length ≤ m →
    ∀ u ∈ splitLJP sentences chunks cur m, u.length ≤ m := by
  intro sentences
  induction sentences with
  | nil =>
    intro chunks cur _ hchunks hcur u hu
    rw [splitLJP] at hu
    by_cases h : 0 < cur.length
    · rw [if_pos h] at hu
      rcases List.mem_append.mp hu with h1 | h1
      · exact hchunks u h1
      · simp at h1; subst h1; exact hcur
    · rw [if_neg h] at hu
      exact hchunks u hu
  | cons s rest ih =>
    intro chunks cur hsent hchunks hcur u hu
    rw [splitLJP] at hu
    have hs : s.length + 2 ≤ m := hsent s (by simp)
    set flush : Bool :=
      decide (m < cur.length + s.length + 2) && decide (0 < cur.length) with hflush
    have hchunks1 : ∀ c ∈ (if flush then chunks ++ [cur] else chunks), c.length ≤ m := by
      by_cases hf : flush = true
      · rw [if_pos hf]
        intro c hc
        rcases List.mem_append.mp hc with h1 | h1
        · exact hchunks c h1
        · simp at h1; subst h1; exact hcur
      · rw [if_neg hf]
        exact hchunks
    have hcur3 :
        ((if flush then ([] : List Char) else cur) ++ s).length ≤ m - 2 ∨
        ((if flush then ([] : List Char) else cur) ++ s).length ≤ m ∧ ['.'].isSuffixOf s = true := by
      by_cases hf : flush = true
      · left; rw [if_pos hf]; simp; omega
      · rw [if_neg hf]
        have : ¬ (m < cur.length + s.length + 2 ∧ 0 < cur.length) := by
          intro ⟨h1, h2⟩
          exact hf (by rw [hflush]; simp [h1, h2])
        by_cases hc : 0 < cur.length
        · left
          have : ¬ m < cur.length + s.length + 2 := fun hh => this ⟨hh, hc⟩
          simp; omega
        · left; simp; omega
    refine ih _ _ (fun x hx => hsent x (by simp [hx])) hchunks1 ?_ u hu
    by_cases hsuffix : ['.'].isSuffixOf s = true
    · rw [if_pos hsuffix]
      rcases hcur3 with h1 | h1
      · omega
      · exact h1.1
    · rw [if_neg hsuffix]
      rcases hcur3 with h1 | h1
      · simp only [List.length_append, List.length_cons, List.length_nil]
        simp at h1 ⊢
        omega
      · exact absurd h1.2 hsuffix

/-- Every chunk the merge loop emits is bounded by `m` when every input
chunk and the current accumulator are. -/
theorem combineGo_le (m : Nat) : ∀ (chunks combined : List (List Char)) (cur : List Char),
    (∀ c ∈ chunks, c.length ≤ m) →
    (∀ c ∈ combined, c.length ≤ m) →
    cur.length ≤ m →
    ∀ u ∈ combineGo chunks combined cur m, u.length ≤ m := by
  intro chunks
  induction chunks with
  | nil =>
    intro combined cur _ hcombined hcur u hu
    rw [combineGo] at hu
    by_cases h : 0 < cur.length
    · rw [if_pos h] at hu
      rcases List.mem_append.mp hu with h1 | h1
      · exact hcombined u h1
      · simp at h1; subst h1; exact hcur
    · rw [if_neg h] at hu
      exact hcombined u hu
  | cons c rest ih =>
    intro combined cur hchunks hcombined hcur u hu
    rw [combineGo] at hu
    by_cases hle : cur.length + c.length + 4 ≤ m
    · rw [if_pos hle] at hu
      refine ih combined _ (fun x hx => hchunks x (by simp [hx])) hcombined ?_ u hu
      by_cases h : 0 < cur.length <;> simp [h] <;> omega
    · rw [if_neg hle] at hu
      refine ih _ c (fun x hx => hchunks x (by simp [hx])) ?_ (hchunks c (by simp)) u hu
      by_cases h : 0 < cur.length
      · rw [if_pos h]
        intro x hx
        rcases List.mem_append.mp hx with h1 | h1
        · exact hcombined x h1
        · simp at h1; subst h1; exact hcur
      · rw [if_neg h]
        exact hcombined

/-- C1 amended: every unit emitted by `chunkByJobPostings` has size at most
`maxChunkSize`, *provided* that in every oversized posting every
`". "`-separated sentence has size at most `maxChunkSize - 2`.  (The
original claim fails without this proviso: `splitLargeJobPosting` can only
cut at `". "` boundaries, so a sentence-free oversized posting passes
through unsplit — see the counterexample.) -/
theorem C1_amended_size_invariant (data : List Char)
    (hsent : ∀ jp ∈ postingsOf data, maxChunkSize < jp.length →
      ∀ s ∈ goSplit jp ['.', ' '], s.length + 2 ≤ maxChunkSize) :
    ∀ u ∈ chunkByJobPostings data, u.length ≤ maxChunkSize := by
  intro u hu
  rw [chunkByJobPostings] at hu
  by_cases hm : markerStarts data = []
  · rw [if_pos hm] at hu
    exact simpleChunkF_length_le data.length data maxChunkSize
      (by norm_num [maxChunkSize]) le_rfl u hu
  · rw [if_neg hm] at hu
    refine combineGo_le maxChunkSize _ [] [] ?_ (by simp) (by simp) u hu
    intro x hx
    rcases List.mem_flatten.mp hx with ⟨sub, hsub, hxsub⟩
    rcases List.mem_map.mp hsub with ⟨jp, hjp, hjpsub⟩
    by_cases hbig : maxChunkSize < jp.length
    · rw [if_pos hbig] at hjpsub
      subst hjpsub
      exact splitLJP_le maxChunkSize _ [] [] (hsent jp hjp hbig) (by simp) (by simp) x hxsub
    · rw [if_neg hbig] at hjpsub
      subst hjpsub
      simp at hxsub
      subst hxsub
      omega

theorem C1_amended_size_invariant_witness :
    (∀ jp ∈ postingsOf ("<a id=up_7 hiring golang devs".toList),
      maxChunkSize < jp.length →
      ∀ s ∈ goSplit jp ['.', ' '], s.length + 2 ≤ maxChunkSize) ∧
    ∀ u ∈ chunkByJobPostings ("<a id=up_7 hiring golang devs".toList),
      u.length ≤ maxChunkSize :=
  ⟨by decide, C1_amended_size_invariant ("<a id=up_7 hiring golang devs".toList) (by decide)⟩

/-! ### C1 counterexample machinery

`c1Input` is a single marked posting of 30011 bytes with no `". "` inside:
`splitLargeJobPosting` cannot cut it, appends `". "`, and the 30013-byte
result flows through `combineSmallChunks` unchanged.  All proofs below are
pure rewriting — no tactic is ever allowed to evaluate the 30011-element
list itself. -/

theorem filter_range_eq_single_zero (n : Nat) (p : Nat → Bool) (hn : 0 < n)
    (h0 : p 0 = true) (h1 : ∀ k, 0 < k → p k = false) :
    (List.range n).filter p = [0] := by
  rcases n with _ | m
  · omega
  · rw [List.range_succ_eq_map, List.filter_cons, h0]
    simp only [if_true]
    rw [List.filter_map]
    rw [List.filter_eq_nil_iff.mpr (by
      intro a _
      simp only [Function.comp_apply]
      rw [h1 (Nat.succ a) (Nat.succ_pos a)]
      simp)]
    simp

theorem isPrefixOf_cons_head_mem {c : Char} {l s : List Char}
    (h : (c :: l).isPrefixOf s = true) : c ∈ s := by
  rcases List.isPrefixOf_iff_prefix.mp h with ⟨t, ht⟩
  subst ht
  simp

theorem c1Input_cons :
    c1Input = '<' :: ("a id=up_".toList ++ '1' :: List.replicate 30001 'a') := rfl

theorem lt_not_mem_c1Input_tail :
    ('<' : Char) ∉ ("a id=up_".toList ++ '1' :: List.replicate 30001 'a') := by
  intro h
  rcases List.mem_append.mp h with h | h
  · exact absurd h (by decide)
  · rcases List.mem_cons.mp h with h | h
    · exact absurd h (by decide)
    · exact absurd (List.eq_of_mem_replicate h) (by decide)

theorem dot_not_mem_c1Input : ('.' : Char) ∉ c1Input := by
  intro h
  rw [c1Input_cons] at h
  rcases List.mem_cons.mp h with h | h
  · exact absurd h (by decide)
  · rcases List.mem_append.mp h with h | h
    · exact absurd h (by decide)
    · rcases List.mem_cons.mp h with h | h
      · exact absurd h (by decide)
      · exact absurd (List.eq_of_mem_replicate h) (by decide)

theorem c1Input_length : c1Input.length = 30011 := by
  have h9 : markerLit.length = 9 := rfl
  rw [c1Input, List.length_append, h9, List.length_cons, List.length_replicate]

theorem isMarkerAt_c1Input_zero : isMarkerAt c1Input 0 = true := by
  rw [isMarkerAt]
  have h1 : markerLit.isPrefixOf (c1Input.drop 0) = true := by
    rw [List.drop_zero, c1Input]
    exact List.isPrefixOf_iff_prefix.mpr (List.prefix_append _ _)
  have h2 : c1Input.drop (0 + markerLit.length) = '1' :: List.replicate 30001 'a' := by
    rw [Nat.zero_add, c1Input, List.drop_left]
  rw [h1, h2, Bool.true_and]
  rfl

theorem isMarkerAt_c1Input_pos (p : Nat) (hp : 0 < p) : isMarkerAt c1Input p = false := by
  have h1 : markerLit.isPrefixOf (c1Input.drop p) = false := by
    cases hpre : markerLit.isPrefixOf (c1Input.drop p) with
    | false => rfl
    | true =>
      have hml : markerLit = '<' :: "a id=up_".toList := rfl
      rw [hml] at hpre
      have hmem : ('<' : Char) ∈ c1Input.drop p := isPrefixOf_cons_head_mem hpre
      have hdp : c1Input.drop p = (c1Input.drop 1).drop (p - 1) := by
        rw [List.drop_drop]
        congr 1
        omega
      rw [hdp] at hmem
      have hmem1 : ('<' : Char) ∈ c1Input.drop 1 := List.mem_of_mem_drop hmem
      rw [c1Input_cons, List.drop_succ_cons, List.drop_zero] at hmem1
      exact absurd hmem1 lt_not_mem_c1Input_tail
  rw [isMarkerAt, h1, Bool.false_and]

theorem markerStarts_c1Input : markerStarts c1Input = [0] := by
  rw [markerStarts, c1Input_length]
  exact filter_range_eq_single_zero 30011 _ (by omega) isMarkerAt_c1Input_zero
    (fun k hk => isMarkerAt_c1Input_pos k hk)

theorem postingsOf_c1Input : postingsOf c1Input = [c1Input] := by
  rw [postingsOf, markerStarts_c1Input]
  show [c1Input.drop 0] = [c1Input]
  rw [List.drop_zero]

theorem goSplitAux_no_dot : ∀ (fuel : Nat) (s acc : List Char), s.length < fuel →
    ('.' : Char) ∉ s → goSplitAux ['.', ' '] fuel acc s = [acc.reverse ++ s] := by
  intro fuel
  induction fuel with
  | zero =>
    intro s acc h
    omega
  | succ n ih =>
    intro s acc hlen hdot
    rcases s with _ | ⟨c, cs⟩
    · simp [goSplitAux]
    · have hc : c ≠ '.' := fun h => hdot (by simp [h])
      have hpre : (['.', ' '] : List Char).isPrefixOf (c :: cs) = false := by
        show (('.' == c) && _) = false
        have hbeq : ('.' == c) = false := by
          cases h : ('.' == c)
          · rfl
          · exact absurd (eq_of_beq h).symm hc
        rw [hbeq, Bool.false_and]
      rw [goSplitAux, if_neg (by simp), if_neg (by simp [hpre])]
      show goSplitAux ['.', ' '] n (c :: acc) cs = [acc.reverse ++ c :: cs]
      rw [ih cs (c :: acc) (by simp at hlen; omega) (fun h => hdot (by simp [h]))]
      simp

theorem goSplit_no_dot (s : List Char) (hdot : ('.' : Char) ∉ s) :
    goSplit s ['.', ' '] = [s] := by
  rw [goSplit, goSplitAux_no_dot (s.length + 1) s [] (by omega) hdot]
  simp

theorem not_isSuffixOf_dot_c1Input : (['.'] : List Char).isSuffixOf c1Input = false := by
  cases hsuf : (['.'] : List Char).isSuffixOf c1Input with
  | false => rfl
  | true =>
    rcases List.isSuffixOf_iff_suffix.mp hsuf with ⟨t, ht⟩
    have hmem : ('.' : Char) ∈ c1Input := by
      rw [← ht]
      simp
    exact absurd hmem dot_not_mem_c1Input

theorem splitLargeJobPosting_c1Input :
    splitLargeJobPosting c1Input maxChunkSize = [c1BadChunk] := by
  rw [splitLargeJobPosting, goSplit_no_dot c1Input dot_not_mem_c1Input]
  rw [splitLJP]
  rw [show decide (0 < ([] : List Char).length) = false from rfl, Bool.and_false]
  have hfneg : ¬(false = true) := by simp
  rw [if_neg hfneg, if_neg hfneg, List.nil_append]
  rw [not_isSuffixOf_dot_c1Input, if_neg hfneg]
  rw [splitLJP]
  rw [if_pos (by rw [List.length_append, c1Input_length]; omega)]
  rw [List.nil_append]
  rfl

theorem c1BadChunk_length : c1BadChunk.length = 30013 := by
  rw [c1BadChunk, List.length_append, c1Input_length]
  rfl

theorem combineSmallChunks_c1BadChunk :
    combineSmallChunks [c1BadChunk] maxChunkSize = [c1BadChunk] := by
  rw [combineSmallChunks, combineGo]
  rw [if_neg (by rw [List.length_nil, c1BadChunk_length]; decide)]
  rw [if_neg (by simp)]
  rw [combineGo]
  rw [if_pos (by rw [c1BadChunk_length]; decide)]
  rw [List.nil_append]

/-- C1 counterexample: on a document whose single posting is 30011 bytes of
sentence-free text, `chunkByJobPostings` emits one unit of 30013 bytes —
`splitLargeJobPosting` finds no `". "` boundary to cut at, appends `". "`,
and `combineSmallChunks` passes the oversized chunk through unchanged. -/
theorem C1_counterexample :
    chunkByJobPostings c1Input = [c1BadChunk] ∧ maxChunkSize < c1BadChunk.length := by
  constructor
  · rw [chunkByJobPostings, if_neg (by rw [markerStarts_c1Input]; simp)]
    rw [postingsOf_c1Input]
    have hbig : maxChunkSize < c1Input.length := by
      rw [c1Input_length]
      decide
    rw [List.map_cons, List.map_nil, if_pos hbig, splitLargeJobPosting_c1Input]
    rw [List.flatten_cons, List.flatten_nil, List.append_nil]
    exact combineSmallChunks_c1BadChunk
  · rw [c1BadChunk_length]
    decide

/-! ### Claim C3: lossless reconstruction from Segmenter output -/

theorem flatten_map_singleton (l : List (List Char)) :
    (l.map (fun x => [x])).flatten = l := by
  induction l with
  | nil => rfl
  | cons a as ih => simp [ih]

theorem markerStarts_pairwise (data : List Char) :
    (markerStarts data).Pairwise (· ≤ ·) := by
  rw [markerStarts]
  exact ((List.pairwise_lt_range data.length).filter _).imp Nat.le_of_lt

/-- Segmentation covers: the slices concatenate back to the suffix of the
document starting at the first marker. -/
theorem segmentsFrom_flatten (data : List Char) :
    ∀ (rest : List Nat) (s : Nat), (s :: rest).Pairwise (· ≤ ·) →
      (segmentsFrom data (s :: rest)).flatten = data.drop s := by
  intro rest
  induction rest with
  | nil =>
    intro s _
    show ([data.drop s] : List (List Char)).flatten = data.drop s
    simp
  | cons s2 rest' ih =>
    intro s hpair
    have hle : s ≤ s2 := (List.pairwise_cons.mp hpair).1 s2 (by simp)
    show (((data.drop s).take (s2 - s)) :: segmentsFrom data (s2 :: rest')).flatten =
      data.drop s
    rw [List.flatten_cons, ih s2 (List.pairwise_cons.mp hpair).2]
    have hdd : data.drop s2 = (data.drop s).drop (s2 - s) := by
      rw [List.drop_drop]
      congr 1
      omega
    rw [hdd, List.take_append_drop]

/-- Every byte of every segment is a byte of the document. -/
theorem segmentsFrom_mem_subset (data : List Char) :
    ∀ (starts : List Nat), ∀ jp ∈ segmentsFrom data starts, ∀ c ∈ jp, c ∈ data := by
  intro starts
  induction starts with
  | nil =>
    intro jp hjp
    simp [segmentsFrom] at hjp
  | cons s rest ih =>
    intro jp hjp c hc
    rcases rest with _ | ⟨s2, rest'⟩
    · have : jp = data.drop s := by
        simpa [segmentsFrom] using hjp
      subst this
      exact List.mem_of_mem_drop hc
    · rcases List.mem_cons.mp hjp with h | h
      · subst h
        exact List.mem_of_mem_drop (List.mem_of_mem_take hc)
      · exact ih jp h c hc

/-- The merge loop preserves content up to the inserted `"\n\n"` separators:
after deleting newline bytes, the concatenation of its output equals the
concatenation of (state and) input. -/
theorem combineGo_removeNL_flatten (m : Nat) :
    ∀ (chunks combined : List (List Char)) (cur : List Char),
      ((combineGo chunks combined cur m).map removeNL).flatten =
        (combined.map removeNL).flatten ++ removeNL cur ++
          (chunks.map removeNL).flatten := by
  intro chunks
  induction chunks with
  | nil =>
    intro combined cur
    rw [combineGo]
    by_cases h : 0 < cur.length
    · rw [if_pos h]
      simp [List.map_append, List.flatten_append]
    · rw [if_neg h]
      have : cur = [] := by
        rcases cur with _ | _
        · rfl
        · simp at h
      subst this
      simp [removeNL]
  | cons c rest ih =>
    intro combined cur
    rw [combineGo]
    have hnn : removeNL ((if 0 < cur.length then cur ++ ['\n', '\n'] else cur) ++ c) =
        removeNL cur ++ removeNL c := by
      by_cases h : 0 < cur.length <;>
        simp [h, removeNL, List.filter_append]
    by_cases hle : cur.length + c.length + 4 ≤ m
    · rw [if_pos hle, ih, hnn]
      simp [List.append_assoc]
    · rw [if_neg hle, ih]
      by_cases h : 0 < cur.length
      · rw [if_pos h]
        simp [List.map_append, List.flatten_append, List.append_assoc]
      · rw [if_neg h]
        have : cur = [] := by
          rcases cur with _ | _
          · rfl
          · simp at h
        subst this
        simp [removeNL]

theorem removeNL_eq_self (s : List Char) (h : ('\n' : Char) ∉ s) : removeNL s = s := by
  rw [removeNL]
  refine List.filter_eq_self.mpr ?_
  intro a ha
  have : a ≠ '\n' := fun hh => h (hh ▸ ha)
  simpa using this

/-- C3 amended: for a cleaned document with at least one boundary marker, in
which no posting exceeds `maxChunkSize` (so the lossy sentence splitter is
not invoked) and which contains no newline byte (true of Normalizer output),
concatenating the Segmenter/Balancer units with the inserted separators
removed yields exactly the document *from the first marker onward*: the
bytes before the first marker are dropped by the segmentation loop. -/
theorem C3_amended_reconstruction (data : List Char)
    (hm : markerStarts data ≠ [])
    (hsize : ∀ jp ∈ postingsOf data, jp.length ≤ maxChunkSize)
    (hnl : ('\n' : Char) ∉ data) :
    ((chunkByJobPostings data).map removeNL).flatten =
      data.drop ((markerStarts data).headD 0) := by
  rw [chunkByJobPostings, if_neg hm]
  have hmap : (postingsOf data).map
      (fun jp => if maxChunkSize < jp.length then splitLargeJobPosting jp maxChunkSize
        else [jp]) = (postingsOf data).map (fun jp => [jp]) := by
    refine List.map_congr_left ?_
    intro jp hjp
    rw [if_neg (by have := hsize jp hjp; omega)]
  rw [hmap, flatten_map_singleton, combineSmallChunks, combineGo_removeNL_flatten]
  have hpostings : (postingsOf data).map removeNL = postingsOf data := by
    refine List.map_congr_left ?_ |>.trans (List.map_id _)
    intro jp hjp
    refine removeNL_eq_self jp ?_
    intro hmem
    exact hnl (segmentsFrom_mem_subset data (markerStarts data) jp hjp '\n' hmem)
  simp only [List.map_nil, List.flatten_nil, List.nil_append]
  rw [show removeNL [] = [] from rfl, List.nil_append, hpostings]
  rcases hms : markerStarts data with _ | ⟨s, rest⟩
  · exact absurd hms hm
  · rw [postingsOf, hms, segmentsFrom_flatten data rest s (hms ▸ markerStarts_pairwise data)]
    rfl

theorem C3_amended_reconstruction_witness :
    (markerStarts ("<a id=up_7 hiring golang devs".toList) ≠ [] ∧
     (∀ jp ∈ postingsOf ("<a id=up_7 hiring golang devs".toList),
       jp.length ≤ maxChunkSize) ∧
     ('\n' : Char) ∉ ("<a id=up_7 hiring golang devs".toList)) ∧
    ((chunkByJobPostings ("<a id=up_7 hiring golang devs".toList)).map removeNL).flatten =
      ("<a id=up_7 hiring golang devs".toList).drop
        ((markerStarts ("<a id=up_7 hiring golang devs".toList)).headD 0) :=
  ⟨⟨by decide, by decide, by decide⟩,
   C3_amended_reconstruction ("<a id=up_7 hiring golang devs".toList)
     (by decide) (by decide) (by decide)⟩

/-- C3 counterexample: a document with one byte of text before its single
marker; the Segmenter slices from the first marker start, so that byte is
lost and concatenation does not reconstruct the document. -/
theorem C3_counterexample :
    chunkByJobPostings c3Input = ["<a id=up_1Y".toList] ∧
    ((chunkByJobPostings c3Input).map removeNL).flatten ≠ c3Input := by
  decide

/-! ### Claims C2 and C5: the retry loop of `performAnalyze` -/

/-- Under persistent rate-limiting the loop makes `left + 1` calls (initial
attempt plus the whole retry budget) and ends in the max-retries error. -/
theorem analyzeGo_always_rl (call : Nat → Except (List Char) (List Char))
    (hrl : ∀ k, ∃ m, call k = Except.error m ∧ isRateLimitError m = true) :
    ∀ left retries : Nat,
      (analyzeGo call left retries).attempts = left + 1 ∧
      ∃ m, (analyzeGo call left retries).outcome = AnalyzeOutcome.maxRetriesErr m := by
  intro left
  induction left with
  | zero =>
    intro retries
    obtain ⟨m, hcall, hrlm⟩ := hrl retries
    rw [analyzeGo, hcall]
    simp [hrlm]
  | succ l ih =>
    intro retries
    obtain ⟨m, hcall, hrlm⟩ := hrl retries
    rw [analyzeGo, hcall]
    simp only [hrlm, if_true]
    exact ⟨by simp [(ih (retries + 1)).1], (ih (retries + 1)).2⟩

/-- C2 amended: for a capability that fails with a classified rate-limit
error on every attempt, the retry loop stops and returns the terminal
max-retries-exceeded error after exactly `maxRetries + 1` attempts of the
extraction call — the initial attempt plus `maxRetries` retries (the Go loop
itself prints "attempt %d/%d" against `maxRetries+1`), not after
`maxRetries` attempts as claimed. -/
theorem C2_amended_retry_exhaustion (call : Nat → Except (List Char) (List Char))
    (maxRetries : Nat)
    (hrl : ∀ k, ∃ m, call k = Except.error m ∧ isRateLimitError m = true) :
    (performAnalyze call maxRetries).attempts = maxRetries + 1 ∧
    ∃ m, (performAnalyze call maxRetries).outcome = AnalyzeOutcome.maxRetriesErr m :=
  analyzeGo_always_rl call hrl maxRetries 0

theorem C2_amended_retry_exhaustion_witness :
    (∀ k : Nat, ∃ m,
      (fun _ : Nat => (Except.error ("429".toList) : Except (List Char) (List Char))) k =
        Except.error m ∧ isRateLimitError m = true) ∧
    ((performAnalyze (fun _ => Except.error ("429".toList)) 5).attempts = 5 + 1 ∧
     ∃ m, (performAnalyze (fun _ => Except.error ("429".toList)) 5).outcome =
       AnalyzeOutcome.maxRetriesErr m) :=
  ⟨fun _ => ⟨"429".toList, rfl, by decide⟩,
   C2_amended_retry_exhaustion (fun _ => Except.error ("429".toList)) 5
     (fun _ => ⟨"429".toList, rfl, by decide⟩)⟩

/-- C2 counterexample: with `maxRetries = 5` (the source constant) and a
capability that always fails rate-limited, the loop makes 6 extraction
calls, not 5: the claimed "exactly maxRetries attempts" is false. -/
theorem C2_counterexample :
    goMaxRetries = 5 ∧
    (performAnalyze (fun _ => Except.error ("429".toList)) goMaxRetries).attempts = 6 ∧
    (performAnalyze (fun _ => Except.error ("429".toList)) goMaxRetries).attempts ≠
      goMaxRetries ∧
    (performAnalyze (fun _ => Except.error ("429".toList)) goMaxRetries).outcome =
      AnalyzeOutcome.maxRetriesErr ("429".toList) := by
  decide

/-- Each recorded wait `j` (0-based) follows a rate-limited failure of
attempt `j+1` and equals the parsed server-suggested wait when that parse
is non-zero, else the capped exponential backoff
`min(retryBaseDelay * 2^j, maxRetryDelay)` (milliseconds, stored here in
nanoseconds). -/
theorem analyzeGo_waits_formula (call : Nat → Except (List Char) (List Char)) :
    ∀ (left retries j : Nat),
      j < (analyzeGo call left retries).waits.length →
      ∃ m, call (retries + j) = Except.error m ∧ isRateLimitError m = true ∧
        (analyzeGo call left retries).waits.getD j 0 =
          (if parseRetryAfter m = 0 then ((backoffWait (retries + j + 1) : Nat) : Int)
           else parseRetryAfter m) := by
  intro left
  induction left with
  | zero =>
    intro retries j hj
    exfalso
    rcases hc : call retries with msg | content <;> rw [analyzeGo, hc] at hj
    · cases hrl : isRateLimitError msg <;> simp [hrl] at hj
    · simp at hj
  | succ l ih =>
    intro retries j hj
    rcases hc : call retries with msg | content
    · cases hrl : isRateLimitError msg
      · exfalso
        rw [analyzeGo, hc] at hj
        simp [hrl] at hj
      · rw [analyzeGo, hc]
        simp only [hrl, if_true]
        rw [analyzeGo, hc] at hj
        simp only [hrl, if_true, List.length_cons] at hj
        rcases j with _ | j'
        · refine ⟨msg, by rw [Nat.add_zero]; exact hc, hrl, ?_⟩
          simp [computeWait]
        · have hj' : j' < (analyzeGo call l (retries + 1)).waits.length := by
            omega
          obtain ⟨m, hcall, hm, hwait⟩ := ih (retries + 1) j' hj'
          refine ⟨m, ?_, hm, ?_⟩
          · rw [show retries + (j' + 1) = retries + 1 + j' from by omega]
            exact hcall
          · simp only [List.getD_cons_succ]
            rw [show retries + (j' + 1) + 1 = retries + 1 + j' + 1 from by omega]
            exact hwait
    · exfalso
      rw [analyzeGo, hc] at hj
      simp at hj

/-- C5 amended: every wait recorded by the retry loop (the `j`-th wait,
following the rate-limited failure of attempt `k = j+1`) equals
`min(baseDelay * 2^(k-1), maxDelay)` (with `baseDelay = 1000`ms,
`maxDelay = 60000`ms, expressed in nanoseconds) — *unless* the error
message carries a parseable **non-zero** server-suggested wait duration, in
which case exactly that duration is used for that attempt.  A suggested
wait that parses to zero is treated as absent and the backoff is used
(see the counterexample). -/
theorem C5_amended_backoff_or_suggested (call : Nat → Except (List Char) (List Char))
    (maxRetries j : Nat)
    (hj : j < (performAnalyze call maxRetries).waits.length) :
    ∃ m, call j = Except.error m ∧ isRateLimitError m = true ∧
      (performAnalyze call maxRetries).waits.getD j 0 =
        (if parseRetryAfter m = 0
         then ((min (retryBaseDelay * 2 ^ j * 1000000) (maxRetryDelay * 1000000) : Nat) : Int)
         else parseRetryAfter m) := by
  rw [performAnalyze] at hj
  obtain ⟨m, hcall, hm, hwait⟩ := analyzeGo_waits_formula call maxRetries 0 j hj
  refine ⟨m, by simpa using hcall, hm, ?_⟩
  rw [performAnalyze, hwait]
  have hbw : backoffWait (0 + j + 1) =
      min (retryBaseDelay * 2 ^ j * 1000000) (maxRetryDelay * 1000000) := by
    rw [backoffWait, Nat.shiftLeft_eq, show 0 + j + 1 - 1 = j from by omega]
  rw [hbw]

theorem C5_amended_backoff_or_suggested_witness :
    0 < (performAnalyze (fun _ => Except.error ("Too Many Requests".toList)) 5).waits.length ∧
    ∃ m, (fun _ : Nat => (Except.error ("Too Many Requests".toList) :
        Except (List Char) (List Char))) 0 = Except.error m ∧
      isRateLimitError m = true ∧
      (performAnalyze (fun _ => Except.error ("Too Many Requests".toList)) 5).waits.getD 0 0 =
        (if parseRetryAfter m = 0
         then ((min (retryBaseDelay * 2 ^ 0 * 1000000) (maxRetryDelay * 1000000) : Nat) : Int)
         else parseRetryAfter m) :=
  ⟨by decide,
   C5_amended_backoff_or_suggested (fun _ => Except.error ("Too Many Requests".toList)) 5 0
     (by decide)⟩

/-- C5 counterexample: the message "429 Please try again in 0ms" carries a
*parseable* server-suggested wait (`time.ParseDuration("0ms")` succeeds,
value 0), so the claim requires that exactly 0 be waited; but the code
treats `waitTime == 0` as "nothing parsed" and waits the computed backoff
of 1 second (10^9 ns) instead. -/
theorem C5_counterexample :
    parseDuration ("0ms".toList) = some 0 ∧
    isRateLimitError c5Msg = true ∧
    (performAnalyze (fun _ => Except.error c5Msg) goMaxRetries).waits.getD 0 0 =
      1000000000 ∧
    (performAnalyze (fun _ => Except.error c5Msg) goMaxRetries).waits.getD 0 0 ≠ 0 := by
  decide

/-! ### Claim C4: a terminal per-unit failure aborts the whole batch -/

/-- The `errors` slice collected by the scheduler is exactly the failed
deliveries, in arrival order. -/
theorem collectResults_errors : ∀ (arrival : List ChunkOutcome)
    (acc : List (List Char) × List (Nat × List Char)),
    (arrival.foldl
      (fun acc r =>
        match r.2 with
        | .error msg => (acc.1, acc.2 ++ [(r.1, msg)])
        | .ok content => (acc.1.set r.1 content, acc.2)) acc).2 =
      acc.2 ++ arrival.filterMap pickErr := by
  intro arrival
  induction arrival with
  | nil => intro acc; simp
  | cons r rest ih =>
    intro acc
    rcases r with ⟨i, res⟩
    rcases res with msg | content
    · rw [List.foldl_cons, ih]
      simp [pickErr]
    · rw [List.foldl_cons, ih]
      simp [pickErr]

/-- C4: if the extraction outcome of at least one dispatched unit is a
terminal error, the Scheduler returns an error listing exactly the failing
units (up to delivery order) and *no* per-unit results at all — and
`runScript` then aborts before any file is written. -/
theorem C4_terminal_failure_halts (chunks : List (List Char))
    (analyze : List Char → Except (List Char) (List Char))
    (arrival : List ChunkOutcome)
    (hperm : arrival.Perm (dispatchedOutcomes chunks analyze))
    (hfail : ∃ c ∈ chunks, ∃ msg, analyze c = Except.error msg) :
    ∃ errs, processChunksConcurrently chunks arrival = Except.error errs ∧
      errs ≠ [] ∧
      errs.Perm ((dispatchedOutcomes chunks analyze).filterMap pickErr) ∧
      runPipelineSave chunks arrival = none := by
  have herrs : (collectResults chunks.length arrival).2 = arrival.filterMap pickErr := by
    rw [collectResults, collectResults_errors]
    simp
  have hpermerr : (arrival.filterMap pickErr).Perm
      ((dispatchedOutcomes chunks analyze).filterMap pickErr) := hperm.filterMap pickErr
  have hne : (dispatchedOutcomes chunks analyze).filterMap pickErr ≠ [] := by
    obtain ⟨c, hc, msg, hmsg⟩ := hfail
    obtain ⟨i, hi, hci⟩ := List.mem_iff_getElem.mp hc
    intro hnil
    have hmem : (i, analyze c) ∈ dispatchedOutcomes chunks analyze := by
      rw [dispatchedOutcomes, List.mem_enum_iff_getElem?]
      rw [List.getElem?_map, List.getElem?_eq_getElem hi, hci]
      rfl
    have := List.filterMap_eq_nil_iff.mp hnil _ hmem
    rw [pickErr, hmsg] at this
    simp at this
  have hne2 : (collectResults chunks.length arrival).2 ≠ [] := by
    rw [herrs]
    intro hnil
    exact hne ((hnil ▸ hpermerr).symm.eq_nil)
  refine ⟨(collectResults chunks.length arrival).2, ?_, hne2, herrs ▸ hpermerr, ?_⟩
  · rw [processChunksConcurrently, if_neg hne2]
  · rw [runPipelineSave, processChunksConcurrently, if_neg hne2]

theorem C4_terminal_failure_halts_witness :
    ([(0, Except.error ("boom".toList))] : List ChunkOutcome).Perm
      (dispatchedOutcomes [['a']] (fun _ => Except.error ("boom".toList))) ∧
    (∃ c ∈ [['a']], ∃ msg,
      (fun _ : List Char => (Except.error ("boom".toList) :
        Except (List Char) (List Char))) c = Except.error msg) ∧
    ∃ errs, processChunksConcurrently [['a']] [(0, Except.error ("boom".toList))] =
        Except.error errs ∧
      errs ≠ [] ∧
      errs.Perm ((dispatchedOutcomes [['a']]
        (fun _ => Except.error ("boom".toList))).filterMap pickErr) ∧
      runPipelineSave [['a']] [(0, Except.error ("boom".toList))] = none :=
  ⟨by decide, ⟨['a'], by decide, "boom".toList, rfl⟩,
   C4_terminal_failure_halts [['a']] (fun _ => Except.error ("boom".toList))
     [(0, Except.error ("boom".toList))] (by decide)
     ⟨['a'], by decide, "boom".toList, rfl⟩⟩

/-! ### Claim C7: Compiler ordering -/

/-- C7 counterexample: with 11 non-empty results the per-unit files are
`output-0.log` … `output-10.log`, and `os.ReadDir`'s byte-wise filename sort
places `output-10.log` between `output-1.log` and `output-2.log`: the
compiled artifact is `A B K C D E F G H I J`, not the ascending-index
order `A B C D E F G H I J K`. -/
theorem C7_counterexample :
    c7Results.length = 11 ∧ (∀ r ∈ c7Results, r ≠ []) ∧
    consolidateLogs (saveResultsToFiles c7Results 0) =
      "A\nB\nK\nC\nD\nE\nF\nG\nH\nI\nJ\n".toList ∧
    consolidateLogs (saveResultsToFiles c7Results 0) ≠
      "A\nB\nC\nD\nE\nF\nG\nH\nI\nJ\nK\n".toList := by
  decide

/-- The files written by `saveResultsToFiles`: the non-empty contents, in
order, with consecutive file indices starting at `k`. -/
theorem saveResultsToFiles_eq : ∀ (results : List (List Char)) (k : Nat),
    saveResultsToFiles results k =
      ((results.filter (fun c => c != [])).enumFrom k).map
        (fun p => (outputFileName p.1, p.2)) := by
  intro results
  induction results with
  | nil => intro k; rfl
  | cons c rest ih =>
    intro k
    by_cases hc : c = []
    · subst hc
      rw [saveResultsToFiles, if_pos rfl, ih k]
      have hfil : (([] : List Char) :: rest).filter (fun c => c != []) =
          rest.filter (fun c => c != []) := by
        simp
      rw [hfil]
    · rw [saveResultsToFiles, if_neg hc, ih (k + 1)]
      have hfil : (c :: rest).filter (fun c => c != []) =
          c :: rest.filter (fun c => c != []) := by
        simp [hc]
      rw [hfil, List.enumFrom_cons, List.map_cons]

/-- An insertion sort is the identity on an already-sorted listing. -/
theorem sortByName_sorted : ∀ l : List (List Char × List Char),
    List.Chain' (fun a b => lexLe a.1 b.1 = true) l → sortByName l = l := by
  intro l
  induction l with
  | nil => intro _; rfl
  | cons f fs ih =>
    intro hchain
    rw [sortByName, ih hchain.tail]
    rcases fs with _ | ⟨g, gs⟩
    · rfl
    · rw [insertByName, if_pos (List.chain'_cons.mp hchain).1]

theorem lexLe_append_lt : ∀ (p : List Char) (a b : Char) (s t : List Char),
    a < b → lexLe (p ++ a :: s) (p ++ b :: t) = true := by
  intro p
  induction p with
  | nil =>
    intro a b s t hab
    rw [List.nil_append, List.nil_append, lexLe,
      if_neg (by intro h; subst h; exact lt_irrefl a hab)]
    exact decide_eq_true hab
  | cons c p' ih =>
    intro a b s t hab
    rw [List.cons_append, List.cons_append, lexLe, if_pos rfl]
    exact ih a b s t hab

theorem natName_lt_ten (i : Nat) (h : i < 10) : natName i = [Nat.digitChar i] := by
  have hall : ∀ j < 10, Nat.toDigits 10 j = [Nat.digitChar j] := by decide
  rw [natName]
  exact hall i h

theorem outputFileName_lexLe_succ (i : Nat) (h : i + 1 ≤ 9) :
    lexLe (outputFileName i) (outputFileName (i + 1)) = true := by
  have hd : Nat.digitChar i < Nat.digitChar (i + 1) := by
    have hall : ∀ j < 9, Nat.digitChar j < Nat.digitChar (j + 1) := by decide
    exact hall i (by omega)
  rw [outputFileName, outputFileName, natName_lt_ten i (by omega),
    natName_lt_ten (i + 1) (by omega)]
  have hshape : ∀ c : Char, "output-".toList ++ [c] ++ ".log".toList =
      "output-".toList ++ c :: ".log".toList := by
    intro c
    simp
  rw [hshape, hshape]
  exact lexLe_append_lt _ _ _ _ _ hd

theorem outputFileName_ne_compiled (i : Nat) : outputFileName i ≠ compiledLogName := by
  intro h
  have h1 : (outputFileName i).head? = some 'o' := rfl
  rw [h] at h1
  exact absurd h1 (by decide)

/-- Files `output-k.log` … for at most 10 single-digit indices are already
in `ReadDir` (filename) order. -/
theorem savedFiles_chain : ∀ (fl : List (List Char)) (k : Nat), k + fl.length ≤ 10 →
    List.Chain' (fun a b : List Char × List Char => lexLe a.1 b.1 = true)
      ((fl.enumFrom k).map (fun p => (outputFileName p.1, p.2))) := by
  intro fl
  induction fl with
  | nil => intro k _; simp
  | cons c rest ih =>
    intro k hk
    rw [List.enumFrom_cons, List.map_cons]
    rcases rest with _ | ⟨d, rest'⟩
    · simp
    · rw [List.enumFrom_cons, List.map_cons]
      refine List.chain'_cons.mpr ⟨?_, ?_⟩
      · exact outputFileName_lexLe_succ k (by simp at hk; omega)
      · have hrec := ih (k + 1) (by simp at hk ⊢; omega)
        rw [List.enumFrom_cons, List.map_cons] at hrec
        exact hrec

theorem filterMap_eq_map_of_some {α β : Type} (g : α → Option β) (f : α → β) :
    ∀ l : List α, (∀ a ∈ l, g a = some (f a)) → l.filterMap g = l.map f := by
  intro l
  induction l with
  | nil => intro _; rfl
  | cons a as ih =>
    intro h
    rw [List.filterMap_cons, h a (by simp), List.map_cons,
      ih (fun x hx => h x (by simp [hx]))]

theorem enumFrom_map_snd_append : ∀ (l : List (List Char)) (k : Nat),
    (l.enumFrom k).map (fun p => p.2 ++ ['\n']) = l.map (fun c => c ++ ['\n']) := by
  intro l
  induction l with
  | nil => intro k; rfl
  | cons c rest ih =>
    intro k
    rw [List.enumFrom_cons, List.map_cons, List.map_cons, ih (k + 1)]

/-- With at most 10 non-empty results (single-digit file indices), the
compiled artifact is the in-order concatenation of the non-empty contents,
each followed by `"\n"`. -/
theorem consolidateLogs_saved (results : List (List Char))
    (hcount : (results.filter (fun c => c != [])).length ≤ 10) :
    consolidateLogs (saveResultsToFiles results 0) =
      ((results.filter (fun c => c != [])).map (fun c => c ++ ['\n'])).flatten := by
  rw [consolidateLogs, saveResultsToFiles_eq,
    sortByName_sorted _ (savedFiles_chain _ 0 (by omega)), List.filterMap_map]
  rw [filterMap_eq_map_of_some _ (fun p : Nat × List Char => p.2 ++ ['\n']) _ (by
    intro p _
    simp only [Function.comp_apply]
    rw [if_neg (outputFileName_ne_compiled p.1)])]
  rw [enumFrom_map_snd_append]

/-- When every delivery is a success, the collection loop is a pure
index-keyed fill of the results slice. -/
theorem collectResults_ok : ∀ (arrival : List ChunkOutcome)
    (acc : List (List Char) × List (Nat × List Char)),
    (∀ r ∈ arrival, ∃ content, r.2 = Except.ok content) →
    arrival.foldl
      (fun acc r =>
        match r.2 with
        | .error msg => (acc.1, acc.2 ++ [(r.1, msg)])
        | .ok content => (acc.1.set r.1 content, acc.2)) acc =
      (setFold (arrival.map (fun r => (r.1, okContent r.2))) acc.1, acc.2) := by
  intro arrival
  induction arrival with
  | nil => intro acc _; rw [setFold]; rfl
  | cons r rest ih =>
    intro acc hok
    obtain ⟨content, hc⟩ := hok r (by simp)
    rcases r with ⟨i, res⟩
    simp only at hc
    subst hc
    rw [List.foldl_cons, List.map_cons, setFold, List.foldl_cons]
    rw [ih (acc.1.set i content, acc.2) (fun x hx => hok x (by simp [hx]))]
    rw [setFold]
    rfl

/-- Filling at pairwise-distinct indices is invariant under delivery
(arrival) order. -/
theorem setFold_perm (l l' : List (Nat × List Char)) (hperm : l.Perm l')
    (hnodup : (l.map Prod.fst).Nodup) (init : List (List Char)) :
    setFold l init = setFold l' init := by
  rw [setFold, setFold]
  refine hperm.foldl_eq' ?_ init
  intro x hx y hy z
  by_cases hxy : x = y
  · subst hxy; rfl
  · have hfst : x.1 ≠ y.1 := fun h =>
      hxy (List.inj_on_of_nodup_map hnodup hx hy h)
    exact List.set_comm _ _ _ hfst

/-- Filling `replicate`-initialized storage in index order yields exactly
the content list. -/
theorem setFold_enumFrom : ∀ (l : List (List Char)) (k : Nat) (init : List (List Char)),
    init.length = k + l.length →
    setFold (l.enumFrom k) init = init.take k ++ l := by
  intro l
  induction l with
  | nil =>
    intro k init hlen
    rw [setFold]
    simp only [List.length_nil, Nat.add_zero] at hlen
    show init = init.take k ++ []
    rw [List.append_nil, List.take_of_length_le (by omega)]
  | cons c rest ih =>
    intro k init hlen
    rw [List.enumFrom_cons, setFold, List.foldl_cons]
    have hk : k < init.length := by
      simp only [List.length_cons] at hlen
      omega
    have hrec := ih (k + 1) (init.set k c) (by
      rw [List.length_set]
      simp only [List.length_cons] at hlen ⊢
      omega)
    rw [setFold] at hrec
    rw [hrec]
    have hset : init.set k c = init.take k ++ c :: init.drop (k + 1) := by
      rw [List.set_eq_take_append_cons_drop, if_pos hk]
    have htake : (init.set k c).take (k + 1) = init.take k ++ [c] := by
      rw [hset, List.take_append_eq_append_take,
        List.take_of_length_le (by rw [List.length_take]; omega),
        List.length_take,
        show k + 1 - min k init.length = 1 from by omega]
      rfl
    rw [htake, List.append_assoc]
    rfl

/-- C7 amended: regardless of the order in which worker outcomes arrive,
the Scheduler's `.ok` payload lists the contents in ascending original unit
index order; and *provided at most 10 files are written* (single-digit
indices) the compiled artifact is their in-order concatenation, each
followed by the `"\n"` record separator.  With 11 or more files, ReadDir's
byte-wise filename sort breaks ascending index order (see the
counterexample), so the artifact is index-ordered only up to lexicographic
filename order. -/
theorem C7_amended_index_order (chunks : List (List Char))
    (analyze : List Char → Except (List Char) (List Char))
    (arrival : List ChunkOutcome)
    (hperm : arrival.Perm (dispatchedOutcomes chunks analyze))
    (hok : ∀ r ∈ arrival, ∃ content, r.2 = Except.ok content)
    (hcount : ((chunks.map (fun c => okContent (analyze c))).filter
      (fun c => c != [])).length ≤ 10) :
    processChunksConcurrently chunks arrival =
      Except.ok (chunks.map (fun c => okContent (analyze c))) ∧
    consolidateLogs
        (saveResultsToFiles (chunks.map (fun c => okContent (analyze c))) 0) =
      (((chunks.map (fun c => okContent (analyze c))).filter (fun c => c != [])).map
        (fun c => c ++ ['\n'])).flatten := by
  have hres : collectResults chunks.length arrival =
      (chunks.map (fun c => okContent (analyze c)), []) := by
    rw [collectResults, collectResults_ok arrival _ hok]
    have hmapperm : (arrival.map (fun r => (r.1, okContent r.2))).Perm
        ((dispatchedOutcomes chunks analyze).map (fun r => (r.1, okContent r.2))) :=
      hperm.map _
    have hfst : (arrival.map (fun r : ChunkOutcome => (r.1, okContent r.2))).map Prod.fst =
        arrival.map Prod.fst := by
      rw [List.map_map]
      rfl
    have hdfst : (dispatchedOutcomes chunks analyze).map Prod.fst =
        List.range chunks.length := by
      rw [dispatchedOutcomes, List.enum_map_fst, List.length_map]
    have hnodup : ((arrival.map (fun r : ChunkOutcome => (r.1, okContent r.2))).map
        Prod.fst).Nodup := by
      rw [hfst]
      exact ((hperm.map Prod.fst).nodup_iff).mpr (hdfst ▸ List.nodup_range _)
    rw [setFold_perm _ _ hmapperm hnodup]
    have hlam : (fun r : ChunkOutcome => (r.1, okContent r.2)) =
        Prod.map id okContent := by
      funext r
      rfl
    have hdm : (dispatchedOutcomes chunks analyze).map
        (fun r : ChunkOutcome => (r.1, okContent r.2)) =
        (chunks.map (fun c => okContent (analyze c))).enum := by
      rw [dispatchedOutcomes, hlam, ← List.enum_map, List.map_map]
      rfl
    rw [hdm]
    rw [show (chunks.map fun c => okContent (analyze c)).enum =
      (chunks.map fun c => okContent (analyze c)).enumFrom 0 from rfl]
    rw [setFold_enumFrom _ 0 _ (by
      rw [List.length_replicate, List.length_map]
      omega)]
    rw [List.take_zero, List.nil_append]
  constructor
  · rw [processChunksConcurrently, hres]
    simp
  · exact consolidateLogs_saved _ hcount

theorem C7_amended_index_order_witness :
    (([(0, Except.ok ("X".toList))] : List ChunkOutcome).Perm
      (dispatchedOutcomes [['a']] (fun _ => Except.ok ("X".toList))) ∧
     (∀ r ∈ ([(0, Except.ok ("X".toList))] : List ChunkOutcome),
       ∃ content, r.2 = Except.ok content) ∧
     ((([['a']] : List (List Char)).map
        (fun c => okContent ((fun _ => Except.ok ("X".toList)) c))).filter
        (fun c => c != [])).length ≤ 10) ∧
    (processChunksConcurrently [['a']] [(0, Except.ok ("X".toList))] =
      Except.ok ["X".toList] ∧
     consolidateLogs (saveResultsToFiles ["X".toList] 0) = "X\n".toList) :=
  ⟨⟨by decide,
    fun r hr => by
      rw [List.mem_singleton] at hr
      subst hr
      exact ⟨"X".toList, rfl⟩,
    by decide⟩,
   C7_amended_index_order [['a']] (fun _ => Except.ok ("X".toList))
     [(0, Except.ok ("X".toList))] (by decide)
     (fun r hr => by
       rw [List.mem_singleton] at hr
       subst hr
       exact ⟨"X".toList, rfl⟩)
     (by decide)⟩

end Scraper
